import Mathlib

/-!
# SecureShare envelope protocol — verification development

A shallow embedding of the SecureShare v2 client-side cryptographic flows
(`src/lib/crypto.ts`), the older flow kept in `src/lib/encryption.ts`, the
download page receiver logic (`src/pages/DownloadPage.tsx`), and the
server-side download-count ledger (the edge function and the database
function it invokes).

Bytes are modelled as `Nat` values (< 256 where a `Uint8Array` guarantees
it).  The Web Crypto AES-GCM primitive is modelled symbolically but
executably: a ciphertext is an injectively parseable byte serialization of
the key, the IV and the plaintext, and decryption parses it back and checks
that the key and IV match — this captures exactly the two properties of the
platform AEAD that the protocol relies on (round trip under the right
key/IV, and authentication failure under any other key or IV).
-/

set_option maxHeartbeats 1000000

deriving instance DecidableEq for Except

namespace SecureShare

/-! ## Byte serialization used by the symbolic Web Crypto model -/

/-- Little-endian base-128 varint encoding of a natural number, with an
explicit fuel argument so that the recursion is structural (and hence
kernel-evaluable).  `fuel ≥ n` always suffices, since `n` shrinks by a
factor of 128 each step. -/
def varintAux (fuel : Nat) (n : Nat) : List Nat :=
  match fuel with
  | 0 => [n % 128]
  | fuel + 1 => if n < 128 then [n] else (128 + n % 128) :: varintAux fuel (n / 128)

/-- Little-endian base-128 varint encoding of a natural number.  Every
emitted byte is `< 256`; all bytes but the last carry a continuation bit. -/
def varint (n : Nat) : List Nat := varintAux n n

/-- Inverse of `varint`: parses one varint from the front of a byte list. -/
def parseVarint : List Nat → Option (Nat × List Nat)
  | [] => none
  | b :: r =>
    if b < 128 then some (b, r)
    else
      match parseVarint r with
      | some (n, r2) => some (b - 128 + 128 * n, r2)
      | none => none

/-- Length-prefixed byte list. -/
def encList (bs : List Nat) : List Nat := varint bs.length ++ bs

/-- Inverse of `encList`. -/
def parseList (l : List Nat) : Option (List Nat × List Nat) :=
  match parseVarint l with
  | some (n, r) => if n ≤ r.length then some (r.take n, r.drop n) else none
  | none => none

/-! ## Symbolic model of Web Crypto keys and AES-GCM -/

/-- A Web Crypto `CryptoKey` as used by the flows: either a generated /
unwrapped AES-GCM key (identified by its raw 32-byte material) or a key
derived by PBKDF2 from the encoded download code, the salt, the iteration
count and the hash name. -/
inductive CryptoKey where
  | aes (material : List Nat)
  | derived (codeBytes : List Nat) (salt : List Nat) (iterations : Nat) (hashBytes : List Nat)
deriving DecidableEq, Repr

/-- Byte serialization of a key, used inside symbolic ciphertexts. -/
def serKey : CryptoKey → List Nat
  | .aes m => 0 :: encList m
  | .derived cb s it hb => 1 :: (encList cb ++ (encList s ++ (varint it ++ encList hb)))

/-- Inverse of `serKey`. -/
def parseKey : List Nat → Option (CryptoKey × List Nat)
  | 0 :: r =>
    match parseList r with
    | some (m, r2) => some (.aes m, r2)
    | none => none
  | 1 :: r =>
    match parseList r with
    | some (cb, r1) =>
      match parseList r1 with
      | some (s, r2) =>
        match parseVarint r2 with
        | some (it, r3) =>
          match parseList r3 with
          | some (hb, r4) => some (.derived cb s it hb, r4)
          | none => none
        | none => none
      | none => none
    | none => none
  | _ => none

/-- Model of `crypto.subtle.encrypt` with AES-GCM (also the cipher inside
`wrapKey`): the ciphertext is the serialization of the key, the IV and the
plaintext.  The real primitive's output is opaque bytes carrying an
authentication tag over exactly this data. -/
def subtleEncrypt (key : CryptoKey) (iv pt : List Nat) : List Nat :=
  serKey key ++ (encList iv ++ pt)

/-- Model of `crypto.subtle.decrypt` with AES-GCM: succeeds with the original
plaintext exactly when the key and IV match the ones used to encrypt;
any mismatch is an authentication (tag) failure, returning `none`. -/
def subtleDecrypt (key : CryptoKey) (iv ct : List Nat) : Option (List Nat) :=
  match parseKey ct with
  | some (k, r) =>
    match parseList r with
    | some (v, pt) => if k = key ∧ v = iv then some pt else none
    | none => none
  | none => none

/-! ## Model of `TextEncoder` / `TextDecoder`

`TextEncoder().encode` is an injective encoding of strings into bytes
(UTF-8).  We model it by a fixed-width three-byte little-endian encoding of
each code point, which is injective for the same reason, and model
`TextDecoder().decode` as its left inverse. -/

/-- Three bytes (little-endian) of one code point; every entry is < 256. -/
def charBytes (c : Char) : List Nat :=
  [c.toNat % 256, c.toNat / 256 % 256, c.toNat / 65536]

def encodeChars : List Char → List Nat
  | [] => []
  | c :: r => charBytes c ++ encodeChars r

/-- Model of `new TextEncoder().encode(s)`. -/
def strBytes (s : String) : List Nat := encodeChars s.data

def decodeChars : List Nat → List Char
  | b0 :: b1 :: b2 :: r => Char.ofNat (b0 + 256 * b1 + 65536 * b2) :: decodeChars r
  | _ => []

/-- Model of `new TextDecoder().decode(bs)`. -/
def bytesToStr (bs : List Nat) : String := String.mk (decodeChars bs)

/-! ## Model of `crypto.getRandomValues`

The random source is an arbitrary byte stream `rng`; a call filling a fresh
`Uint8Array(n)` reads `n` consecutive positions starting at the current
offset.  Distinct calls in one flow read disjoint segments, which is what
"independently generated" means operationally. -/

def takeBytes (rng : Nat → Nat) (off n : Nat) : List Nat :=
  (List.range n).map (fun i => rng (off + i) % 256)

namespace Crypto

/-! ## `src/lib/crypto.ts` — hex helper functions (lines 42–52) -/

/-- One lowercase hex digit, as produced by `Number.prototype.toString(16)`. -/
def hexDigit (n : Nat) : Char :=
  if n < 10 then Char.ofNat (48 + n) else Char.ofNat (87 + n)

/-- Digits of `b.toString(16)`, with structural fuel (`fuel ≥ n` suffices). -/
def natHexDigitsAux (fuel : Nat) (n : Nat) : List Char :=
  match fuel with
  | 0 => [hexDigit (n % 16)]
  | fuel + 1 =>
    if n < 16 then [hexDigit n] else natHexDigitsAux fuel (n / 16) ++ [hexDigit (n % 16)]

/-- Digits of `b.toString(16)` (most significant first, no padding). -/
def natHexDigits (n : Nat) : List Char := natHexDigitsAux n n

/-- `b.toString(16).padStart(2, '0')`. -/
def toHex2 (b : Nat) : List Char :=
  List.replicate (2 - (natHexDigits b).length) '0' ++ natHexDigits b

/-- Characters of the hex string: the `.map(...).join('')` of line 43. -/
def hexCharsOf : List Nat → List Char
  | [] => []
  | b :: r => toHex2 b ++ hexCharsOf r

/-- `arrayBufferToHex` (line 42): bytes to a lowercase hex string. -/
def arrayBufferToHex (bs : List Nat) : String := String.mk (hexCharsOf bs)

/-- Is `c` one of the digits `parseInt(·, 16)` accepts? -/
def isHexDigitChar (c : Char) : Bool :=
  ('0' ≤ c && c ≤ '9') || ('a' ≤ c && c ≤ 'f') || ('A' ≤ c && c ≤ 'F')

/-- Value of a single accepted hex digit. -/
def hexVal (c : Char) : Nat :=
  if '0' ≤ c && c ≤ '9' then c.toNat - 48
  else if 'a' ≤ c && c ≤ 'f' then c.toNat - 87
  else if 'A' ≤ c && c ≤ 'F' then c.toNat - 55
  else 0

/-- Model of JavaScript `parseInt(s, 16)`: skip leading whitespace, an
optional sign, an optional `0x`/`0X`, then read the longest run of hex
digits; `none` models `NaN` (no digit consumed). -/
def parseIntBase16 (cs : List Char) : Option Int :=
  let cs1 := cs.dropWhile (fun c => c.isWhitespace)
  let signed : Bool × List Char :=
    match cs1 with
    | '-' :: r => (true, r)
    | '+' :: r => (false, r)
    | _ => (false, cs1)
  let cs3 : List Char :=
    match signed.2 with
    | '0' :: 'x' :: r => r
    | '0' :: 'X' :: r => r
    | _ => signed.2
  let ds := cs3.takeWhile isHexDigitChar
  if ds.isEmpty then none
  else
    let v : Nat := ds.foldl (fun a c => 16 * a + hexVal c) 0
    some (if signed.1 then -(v : Int) else (v : Int))

/-- A store into a `Uint8Array` element: `NaN` becomes 0, other values are
taken mod 2^8. -/
def toUint8 (v : Option Int) : Nat :=
  match v with
  | none => 0
  | some i => (i % 256).toNat

/-- The loop of `hexToArrayBuffer` (lines 48–50): two characters at a time.
A lone trailing character is parsed, but its store lands one past the end of
the `floor(length / 2)`-sized buffer and is silently dropped. -/
def hexBytesOf : List Char → List Nat
  | c1 :: c2 :: r => toUint8 (parseIntBase16 [c1, c2]) :: hexBytesOf r
  | [_] => []
  | [] => []

/-- `hexToArrayBuffer` (lines 45–52). -/
def hexToArrayBuffer (hex : String) : List Nat := hexBytesOf hex.data

/-! ## `src/lib/crypto.ts` — Base32 encoding (lines 17–39) and
`generateDownloadCode` (lines 56–59).

JavaScript's `<<` and `|` operate on 32-bit values, so the accumulator is
reduced mod 2^32 at each shift; `>>>` is the unsigned right shift. -/

/-- Line 18.  Excludes the visually ambiguous characters I, O, 0, 1. -/
def BASE32_CHARS : String := "ABCDEFGHJKLMNPQRSTUVWXYZ23456789"

/-- `BASE32_CHARS[i]` — the index is always `& 31`, hence in bounds. -/
def b32char (i : Nat) : Char := BASE32_CHARS.data.getD i 'A'

/-- Line 26: `bits = (bits << 8) | bytes[i]` under 32-bit semantics. -/
def b32Push (bits b : Nat) : Nat := ((bits <<< 8) % 4294967296) ||| b

/-- The `while (bitLength >= 5)` loop of lines 28–31, with structural fuel
(`fuel ≥ bl` suffices, as each iteration removes 5 bits). -/
def b32DrainAux (fuel : Nat) (bits bl : Nat) : List Char × Nat :=
  match fuel with
  | 0 => ([], bl)
  | fuel + 1 =>
    if 5 ≤ bl then
      let rest := b32DrainAux fuel bits (bl - 5)
      (b32char ((bits >>> (bl - 5)) &&& 31) :: rest.1, rest.2)
    else ([], bl)

/-- The `while (bitLength >= 5)` loop of lines 28–31: emits 5-bit groups
from the top of the pending window and returns the leftover bit count. -/
def b32Drain (bits : Nat) (bl : Nat) : List Char × Nat := b32DrainAux bl bits bl

/-- The byte loop of lines 25–32 followed by the trailing-group emission of
lines 34–36 (`(bits << (5 - bitLength)) & 31`). -/
def b32Go : List Nat → Nat → Nat → List Char
  | [], bits, bl =>
    if 0 < bl then [b32char (((bits <<< (5 - bl)) % 4294967296) &&& 31)] else []
  | b :: rest, bits, bl =>
    let bits2 := b32Push bits b
    let dr := b32Drain bits2 (bl + 8)
    dr.1 ++ b32Go rest bits2 dr.2

/-- `encodeBase32` (lines 20–39). -/
def encodeBase32 (bytes : List Nat) : String := String.mk (b32Go bytes 0 0)

/-- The byte count `Math.ceil(length * 5 / 8)` passed to `getRandomValues`
on line 57. -/
def downloadCodeEntropyBytes (length : Nat) : Nat := (length * 5 + 7) / 8

/-- `generateDownloadCode` (lines 56–59). -/
def generateDownloadCode (rng : Nat → Nat) (length : Nat) : String :=
  let randomBytes := takeBytes rng 0 (downloadCodeEntropyBytes length)
  (encodeBase32 randomBytes).take length

/-! ## `src/lib/crypto.ts` — configuration, key hierarchy and flows -/

/-- Line 8. -/
def KDF_ITERATIONS : Nat := 250000

/-- Line 9. -/
def KDF_HASH : String := "SHA-256"

/-- Line 10. -/
def SALT_BYTES : Nat := 16

/-- Line 11. -/
def IV_BYTES : Nat := 12

/-- Line 13. -/
def KEY_LEN : Nat := 256

/-- Line 15. -/
def WRAP_IV_BYTES : Nat := 12

/-- `generateFileKey` (lines 61–67): a fresh random 256-bit AES-GCM key; the
platform draws the 32 bytes of key material from the secure random source at
the given stream offset. -/
def generateFileKey (rng : Nat → Nat) (off : Nat) : CryptoKey :=
  .aes (takeBytes rng off (KEY_LEN / 8))

/-- `deriveKek` (lines 69–90): PBKDF2 over the TextEncoder-encoded download
code with the given salt, iteration count and hash; deterministic in its
inputs, and distinct inputs give distinct keys. -/
def deriveKek (downloadCode : String) (salt : List Nat) : CryptoKey :=
  .derived (strBytes downloadCode) salt KDF_ITERATIONS (strBytes KDF_HASH)

/-- Raw export of an AES key, as `wrapKey("raw", ...)` performs before
encrypting.  Only AES keys are ever exported in these flows. -/
def rawKeyBytes : CryptoKey → List Nat
  | .aes m => m
  | .derived _ _ _ _ => []

/-- `wrapFileKey` (lines 92–101): draws a fresh wrap IV and
authenticated-encrypts the raw file key under the KEK; returns the wrapped
key and the IV used. -/
def wrapFileKey (rng : Nat → Nat) (off : Nat) (fileKey kek : CryptoKey) :
    List Nat × List Nat :=
  let iv := takeBytes rng off WRAP_IV_BYTES
  (subtleEncrypt kek iv (rawKeyBytes fileKey), iv)

/-- `unwrapFileKey` (lines 103–113): authenticated decryption of the wrapped
key under the KEK; importing the result as an AES-GCM 256 key also checks
its length. -/
def unwrapFileKey (wrappedKey iv : List Nat) (kek : CryptoKey) : Option CryptoKey :=
  match subtleDecrypt kek iv wrappedKey with
  | some m => if m.length = KEY_LEN / 8 then some (.aes m) else none
  | none => none

/-- The relevant parts of a DOM `File`: name, MIME type and content bytes
(`file.size` is the byte count). -/
structure FileData where
  name : String
  mimeType : String
  bytes : List Nat
deriving DecidableEq, Repr

/-- The metadata envelope of lines 145–160.  `kdf_params` is flattened into
`kdf_iterations` and `kdf_hash`; the optional note fields are `Option`s,
absent when the sender stored no note. -/
structure Envelope where
  filename : String
  mime_type : String
  size : Nat
  alg : String
  iv : String
  salt : String
  kdf_iterations : Nat
  kdf_hash : String
  wrapped_file_key : String
  wrap_iv : String
  encrypted_instructions : Option String := none
  instructions_iv : Option String := none
deriving DecidableEq, Repr

/-- `encryptFile` (lines 116–163).  The random stream is consumed in source
order: file-key material at offset 0 (32 bytes), salt at 32 (16 bytes), wrap
IV at 48 (12 bytes), content IV at 60 (12 bytes) and, when a non-blank note
is present, the note IV at 72 (12 bytes) — five pairwise disjoint
segments of the stream, i.e. independent draws. -/
def encryptFile (rng : Nat → Nat) (file : FileData) (downloadCode : String)
    (instructions : Option String) : List Nat × Envelope :=
  let fileKey := generateFileKey rng 0
  let salt := takeBytes rng 32 SALT_BYTES
  let kek := deriveKek downloadCode salt
  let wrapped := wrapFileKey rng 48 fileKey kek
  let iv := takeBytes rng 60 IV_BYTES
  let ciphertext := subtleEncrypt fileKey iv file.bytes
  let instrFields : Option String × Option String :=
    match instructions with
    | some s =>
      if s.trim ≠ "" then
        let instructions_iv := takeBytes rng 72 IV_BYTES
        (some (arrayBufferToHex (subtleEncrypt fileKey instructions_iv (strBytes s))),
         some (arrayBufferToHex instructions_iv))
      else (none, none)
    | none => (none, none)
  (ciphertext,
   { filename := file.name
     mime_type := file.mimeType
     size := file.bytes.length
     alg := "AES-GCM"
     iv := arrayBufferToHex iv
     salt := arrayBufferToHex salt
     kdf_iterations := KDF_ITERATIONS
     kdf_hash := KDF_HASH
     wrapped_file_key := arrayBufferToHex wrapped.1
     wrap_iv := arrayBufferToHex wrapped.2
     encrypted_instructions := instrFields.1
     instructions_iv := instrFields.2 })

/-- Events of the receiver flow, in source order; used to state in which
order field decoding and cryptographic calls happen. -/
inductive RecvEv where
  | hexDecode (field : String)
  | kdf
  | unwrap
deriving DecidableEq, Repr

/-- `getFileKey` (lines 167–178), paired with the exact sequence of
operations it performs.  `hexToArrayBuffer` is total — no validation ever
rejects a malformed field — so the KDF and the unwrap are always reached. -/
def getFileKey (envelope : Envelope) (downloadCode : String) :
    List RecvEv × Except String CryptoKey :=
  let salt := hexToArrayBuffer envelope.salt
  let kek := deriveKek downloadCode salt
  let wrappedKey := hexToArrayBuffer envelope.wrapped_file_key
  let wrapIv := hexToArrayBuffer envelope.wrap_iv
  ([.hexDecode "salt", .kdf, .hexDecode "wrapped_file_key", .hexDecode "wrap_iv", .unwrap],
   match unwrapFileKey wrappedKey wrapIv kek with
   | some k => Except.ok k
   | none => Except.error "Decryption failed. The download code may be incorrect.")

/-- A DOM `Blob`: content bytes plus MIME type. -/
structure Blob where
  data : List Nat
  type : String
deriving DecidableEq, Repr

/-- `decryptFile` (lines 180–193). -/
def decryptFile (ciphertext : List Nat) (envelope : Envelope) (fileKey : CryptoKey) :
    Except String Blob :=
  let iv := hexToArrayBuffer envelope.iv
  match subtleDecrypt fileKey iv ciphertext with
  | some pt => Except.ok { data := pt, type := envelope.mime_type }
  | none => Except.error "File decryption failed. The data may be corrupted."

/-- `decryptInstructions` (lines 195–212).  The `catch` block on lines
208–211 returns the placeholder string as an ordinary value instead of
re-throwing, so this function never raises. -/
def decryptInstructions (envelope : Envelope) (fileKey : CryptoKey) :
    Except String (Option String) :=
  match envelope.encrypted_instructions, envelope.instructions_iv with
  | some ei, some ii =>
    let instructions_iv := hexToArrayBuffer ii
    let encrypted_instructions := hexToArrayBuffer ei
    (match subtleDecrypt fileKey instructions_iv encrypted_instructions with
     | some pt => Except.ok (some (bytesToStr pt))
     | none => Except.ok (some "Could not decrypt instructions."))
  | _, _ => Except.ok none

end Crypto

namespace EncryptionV1

/-! ## `src/lib/encryption.ts` (second part) — the older envelope flow

This file carries an earlier version of the same protocol.  Its
`encryptFile` never stores the wrap IV in the envelope, and its
`decryptFile` (lines 335–371) unwraps the file key with the *content* IV
(`envelope.iv`, line 355) instead of an independently generated wrap IV —
see the in-source comments on lines 341–355.  Constants and helpers
duplicate `crypto.ts` and are shared here. -/

/-- V1's `hexToArrayBuffer` (lines 192–193): `hex.match(/.{1,2}/g)` chunks
into pairs, keeping a lone trailing character as a one-character chunk.
(On the empty string `match` yields `null` and the non-null assertion
throws; the flows never pass an empty string.) -/
def hexBytesOfV1 : List Char → List Nat
  | c1 :: c2 :: r => Crypto.toUint8 (Crypto.parseIntBase16 [c1, c2]) :: hexBytesOfV1 r
  | [c1] => [Crypto.toUint8 (Crypto.parseIntBase16 [c1])]
  | [] => []

def hexToArrayBuffer (hex : String) : List Nat := hexBytesOfV1 hex.data

/-- The envelope of lines 307–321: note the absence of any `wrap_iv` field
(and of the optional note fields). -/
structure EnvelopeV1 where
  filename : String
  mime_type : String
  size : Nat
  alg : String
  iv : String
  salt : String
  kdf_iterations : Nat
  kdf_hash : String
  wrapped_file_key : String
deriving DecidableEq, Repr

/-- `encryptFile` (lines 292–324).  Same draw order as the v2 flow —
file-key material, salt, wrap IV, content IV — but the wrap IV is dropped
on the floor: it is never placed in the envelope. -/
def encryptFile (rng : Nat → Nat) (file : Crypto.FileData) (downloadCode : String) :
    List Nat × EnvelopeV1 :=
  let fileKey := Crypto.generateFileKey rng 0
  let salt := takeBytes rng 32 Crypto.SALT_BYTES
  let kek := Crypto.deriveKek downloadCode salt
  let wrapped := Crypto.wrapFileKey rng 48 fileKey kek
  let iv := takeBytes rng 60 Crypto.IV_BYTES
  let ciphertext := subtleEncrypt fileKey iv file.bytes
  (ciphertext,
   { filename := file.name
     mime_type := file.mimeType
     size := file.bytes.length
     alg := "AES-GCM"
     iv := Crypto.arrayBufferToHex iv
     salt := Crypto.arrayBufferToHex salt
     kdf_iterations := Crypto.KDF_ITERATIONS
     kdf_hash := Crypto.KDF_HASH
     wrapped_file_key := Crypto.arrayBufferToHex wrapped.1 })

/-- `decryptFile` (lines 335–371).  Line 355 reuses the content IV
(`envelope.iv`) as the wrap IV.  The whole body is one `try`/`catch`, so
every failure surfaces as the same single message. -/
def decryptFile (ciphertext : List Nat) (envelope : EnvelopeV1) (downloadCode : String) :
    Except String Crypto.Blob :=
  let salt := hexToArrayBuffer envelope.salt
  let kek := Crypto.deriveKek downloadCode salt
  let wrappedKey := hexToArrayBuffer envelope.wrapped_file_key
  let wrapIv := hexToArrayBuffer envelope.iv
  match Crypto.unwrapFileKey wrappedKey wrapIv kek with
  | none => Except.error "Decryption failed. The download code may be incorrect or the data corrupted."
  | some fileKey =>
    let iv := hexToArrayBuffer envelope.iv
    match subtleDecrypt fileKey iv ciphertext with
    | some pt => Except.ok { data := pt, type := envelope.mime_type }
    | none => Except.error "Decryption failed. The download code may be incorrect or the data corrupted."

end EncryptionV1

namespace Ledger

/-! ## Server-side download-count ledger

`src/unnamed/part_006` is the edge function: it calls the database function
`increment_download_count` by RPC (line 29) and maps its boolean result to
an HTTP status.  The SQL body of `increment_download_count` itself is not
under `src/`. -/

/-- The mutable ledger state bound to one envelope. -/
structure LedgerEntry where
  download_count : Nat
  max_downloads : Nat
  expires_at : Nat
deriving DecidableEq, Repr

/-- Modelled from the spec: the database function `increment_download_count`
invoked by the edge function (`src/unnamed/part_006`, line 29) — its SQL
definition is not under `src/`.  Per spec §4.6 it evaluates
`expires_at > now AND download_count < max_downloads` and, if both hold,
increments the counter and returns Allowed (`true`); otherwise it returns
Denied (`false`) without mutating state.  The check and the increment are a
single atomic conditional update, so each call is one indivisible step. -/
def increment_download_count (now : Nat) (e : LedgerEntry) : LedgerEntry × Bool :=
  if now < e.expires_at ∧ e.download_count < e.max_downloads then
    ({ e with download_count := e.download_count + 1 }, true)
  else (e, false)

/-- The result mapping of the edge function (`src/unnamed/part_006`,
lines 29–46): an RPC error becomes HTTP 400, `false` becomes 403 (limit
reached / expired), `true` becomes 200. -/
def serve (rpcResult : Except String Bool) : Nat :=
  match rpcResult with
  | Except.error _ => 400
  | Except.ok false => 403
  | Except.ok true => 200

/-- `n` invocations of the atomic RPC against the same entry.  Because each
call is one atomic step, any concurrent execution of `n` calls is equivalent
to some sequential order of them; all calls being identical, this sequence
represents every interleaving. -/
def runCalls (now : Nat) (e : LedgerEntry) : Nat → LedgerEntry × List Bool
  | 0 => (e, [])
  | n + 1 =>
    let step := increment_download_count now e
    let rest := runCalls now step.1 n
    (rest.1, step.2 :: rest.2)

end Ledger

namespace DownloadPage

/-! ## `src/pages/DownloadPage.tsx` — `handleDownload` (lines 76–103)

The two collaborators are passed as oracles: the result of the
`increment-download-count` edge-function invocation and the result of the
storage download.  The event trace records which external calls the handler
actually performs, in order. -/

inductive DlEv where
  | invokeIncrement
  | storageDownload
  | decrypt
  | release
deriving DecidableEq, Repr

/-- `handleDownload`: invoke the increment function; on error, throw before
ever contacting storage.  Only after the increment succeeds is the
ciphertext downloaded, decrypted and released (the object-URL click). -/
def handleDownload (incrementResult : Except String Unit)
    (storageResult : Except String (List Nat))
    (metadata : Crypto.Envelope) (fileKey : CryptoKey) :
    List DlEv × Except String Crypto.Blob :=
  match incrementResult with
  | Except.error e => ([.invokeIncrement], Except.error e)
  | Except.ok _ =>
    match storageResult with
    | Except.error m =>
      ([.invokeIncrement, .storageDownload],
       Except.error (String.append "Failed to download file: " m))
    | Except.ok ct =>
      match Crypto.decryptFile ct metadata fileKey with
      | Except.error m =>
        ([.invokeIncrement, .storageDownload, .decrypt], Except.error m)
      | Except.ok blob =>
        ([.invokeIncrement, .storageDownload, .decrypt, .release], Except.ok blob)

end DownloadPage

/-! ## Byte-validity lemmas: everything the flows hex-encode is `< 256` -/

/-- Every entry of the list is a genuine byte. -/
def IsBytes (l : List Nat) : Prop := ∀ b ∈ l, b < 256

/-- The components a key is built from are genuine bytes. -/
def keyBytesValid : CryptoKey → Prop
  | .aes m => IsBytes m
  | .derived cb s _ hb => IsBytes cb ∧ IsBytes s ∧ IsBytes hb

/-! ## C10: spec-level description of the Base32 encoding

The spec describes `encodeBase32` as: treat the bytes as one contiguous bit
buffer, emit 5-bit groups most-significant-bit-first, and pad the trailing
partial group with zero bits before encoding.  Two variants are defined
below, differing only in which side of the final partial group receives the
zero padding; they are compared against the implementation. -/

/-- Bits of one byte, most significant first. -/
def byteBits (b : Nat) : List Bool := (List.range 8).map (fun i => b.testBit (7 - i))

/-- The contiguous bit buffer of a byte sequence. -/
def bytesBits : List Nat → List Bool
  | [] => []
  | b :: r => byteBits b ++ bytesBits r

/-- Split a bit list into consecutive 5-bit groups; the final group may be
shorter. -/
def chunk5 : List Bool → List (List Bool)
  | [] => []
  | [a] => [[a]]
  | [a, b] => [[a, b]]
  | [a, b, c] => [[a, b, c]]
  | [a, b, c, d] => [[a, b, c, d]]
  | a :: b :: c :: d :: e :: rest => [a, b, c, d, e] :: chunk5 rest

/-- Value of a bit group read most-significant-bit-first. -/
def bitsVal (l : List Bool) : Nat :=
  l.foldl (fun a b => 2 * a + (if b then 1 else 0)) 0

/-- The spec's words under the *left-padding* reading of C10: the trailing
partial group is padded with zero bits in its high-order positions, i.e.
its value is just the value of the remaining bits. -/
def encodeBase32SpecLeftPad (bs : List Nat) : String :=
  String.mk ((chunk5 (bytesBits bs)).map (fun ch => Crypto.b32char (bitsVal ch)))

/-- One 5-bit group with the zero padding on the right (low-order
positions). -/
def chunkMapR (l : List Bool) : List Char :=
  (chunk5 l).map (fun ch =>
    Crypto.b32char (bitsVal (ch ++ List.replicate (5 - ch.length) false)))

/-- The *right-padding* reading: the trailing partial group is padded with
zero bits in its low-order positions (the remaining bits are shifted to the
top of the final 5-bit group). -/
def encodeBase32SpecRightPad (bs : List Nat) : String :=
  String.mk (chunkMapR (bytesBits bs))

/-- The low `bl` bits of `n`, most significant first: the pending window of
the imperative encoder. -/
def lowBits (n bl : Nat) : List Bool :=
  (List.range bl).map (fun i => n.testBit (bl - 1 - i))

end SecureShare


/-! ## Theorems -/

namespace SecureShare

theorem parseVarint_varintAux (fuel : Nat) : ∀ n rest, n ≤ fuel →
    parseVarint (varintAux fuel n ++ rest) = some (n, rest) := by
  induction fuel with
  | zero =>
    intro n rest h
    obtain rfl : n = 0 := by omega
    simp [varintAux, parseVarint]
  | succ fuel ih =>
    intro n rest h
    by_cases h128 : n < 128
    · simp [varintAux, h128, parseVarint]
    · have hdiv : n / 128 ≤ fuel := by omega
      simp only [varintAux, h128, if_false, List.cons_append, parseVarint]
      have hno : ¬ (128 + n % 128 < 128) := by omega
      simp only [hno, if_false, ih (n / 128) rest hdiv]
      simp only [Option.some.injEq, Prod.mk.injEq, and_true]
      omega

theorem parseVarint_varint (n : Nat) (rest : List Nat) :
    parseVarint (varint n ++ rest) = some (n, rest) :=
  parseVarint_varintAux n n rest (Nat.le_refl n)

theorem parseList_encList (bs rest : List Nat) :
    parseList (encList bs ++ rest) = some (bs, rest) := by
  simp only [encList, List.append_assoc, parseList, parseVarint_varint]
  have hle : bs.length ≤ (bs ++ rest).length := by simp
  simp [hle, List.take_left, List.drop_left]

theorem parseKey_serKey (k : CryptoKey) (rest : List Nat) :
    parseKey (serKey k ++ rest) = some (k, rest) := by
  cases k with
  | aes m => simp [serKey, parseKey, parseList_encList]
  | derived cb s it hb =>
    simp [serKey, parseKey, List.append_assoc, parseList_encList, parseVarint_varint]

theorem subtleDecrypt_subtleEncrypt (key : CryptoKey) (iv pt : List Nat) :
    subtleDecrypt key iv (subtleEncrypt key iv pt) = some pt := by
  simp [subtleEncrypt, subtleDecrypt, parseKey_serKey, parseList_encList]

theorem subtleDecrypt_wrong_key (key key' : CryptoKey) (iv iv' pt : List Nat)
    (h : key' ≠ key ∨ iv' ≠ iv) :
    subtleDecrypt key' iv' (subtleEncrypt key iv pt) = none := by
  simp only [subtleEncrypt, subtleDecrypt, parseKey_serKey, parseList_encList]
  rcases h with h | h <;> simp [h]
  · intro hk; exact absurd hk.symm h
  · intro _ hv; exact absurd hv.symm h

theorem decodeChars_encodeChars (cs : List Char) :
    decodeChars (encodeChars cs) = cs := by
  induction cs with
  | nil => rfl
  | cons c r ih =>
    have hval : c.toNat % 256 + 256 * (c.toNat / 256 % 256) + 65536 * (c.toNat / 65536) =
        c.toNat := by omega
    simp [encodeChars, charBytes, decodeChars, hval, Char.ofNat_toNat, ih]

theorem bytesToStr_strBytes (s : String) : bytesToStr (strBytes s) = s := by
  cases s with
  | mk data => simp [bytesToStr, strBytes, decodeChars_encodeChars]

theorem strBytes_injective {s1 s2 : String} (h : strBytes s1 = strBytes s2) :
    s1 = s2 := by
  have := congrArg bytesToStr h
  rwa [bytesToStr_strBytes, bytesToStr_strBytes] at this

theorem takeBytes_lt (rng : Nat → Nat) (off n : Nat) :
    ∀ b ∈ takeBytes rng off n, b < 256 := by
  intro b hb
  simp only [takeBytes, List.mem_map] at hb
  obtain ⟨i, _, rfl⟩ := hb
  exact Nat.mod_lt _ (by omega)

theorem takeBytes_length (rng : Nat → Nat) (off n : Nat) :
    (takeBytes rng off n).length = n := by
  simp [takeBytes]

namespace Crypto

theorem natHexDigits_eq_of_lt16 (b : Nat) (h : b < 16) :
    natHexDigits b = [hexDigit b] := by
  cases b with
  | zero => rfl
  | succ m => simp [natHexDigits, natHexDigitsAux, h]

theorem natHexDigits_eq_of_two_digits (b : Nat) (h16 : ¬ b < 16) (h : b < 256) :
    natHexDigits b = [hexDigit (b / 16), hexDigit (b % 16)] := by
  obtain ⟨f, hf⟩ : ∃ f, b = f + 1 := ⟨b - 1, by omega⟩
  subst hf
  simp only [natHexDigits, natHexDigitsAux, h16, if_false]
  have hdiv16 : (f + 1) / 16 < 16 := by omega
  obtain ⟨f2, hf2⟩ : ∃ f2, f = f2 + 1 := ⟨f - 1, by omega⟩
  subst hf2
  simp only [natHexDigitsAux, hdiv16, if_true, List.singleton_append]

theorem toHex2_eq (b : Nat) (h : b < 256) :
    toHex2 b = [hexDigit (b / 16), hexDigit (b % 16)] := by
  by_cases h16 : b < 16
  · have hd : b / 16 = 0 := by omega
    have hm : b % 16 = b := by omega
    simp [toHex2, natHexDigits_eq_of_lt16 b h16, hd, hm, List.replicate, hexDigit]
  · simp [toHex2, natHexDigits_eq_of_two_digits b h16 h, List.replicate]

theorem parseIntBase16_pair (d1 d2 : Nat) (h1 : d1 < 16) (h2 : d2 < 16) :
    parseIntBase16 [hexDigit d1, hexDigit d2] = some ((16 * d1 + d2 : Nat) : Int) := by
  interval_cases d1 <;> interval_cases d2 <;> decide

theorem hexBytesOf_toHex2 (b : Nat) (h : b < 256) (rest : List Char) :
    hexBytesOf (toHex2 b ++ rest) = b :: hexBytesOf rest := by
  rw [toHex2_eq b h]
  have h1 : b / 16 < 16 := by omega
  have h2 : b % 16 < 16 := by omega
  simp only [List.cons_append, List.nil_append, hexBytesOf,
    parseIntBase16_pair (b / 16) (b % 16) h1 h2, toUint8]
  have hb : 16 * (b / 16) + b % 16 = b := by omega
  rw [hb]
  have hmod : ((b : Int) % 256).toNat = b := by omega
  rw [hmod]
  rfl

/-- The hex codec round-trips on genuine byte lists. -/
theorem hexToArrayBuffer_arrayBufferToHex (bs : List Nat) (h : ∀ b ∈ bs, b < 256) :
    hexToArrayBuffer (arrayBufferToHex bs) = bs := by
  induction bs with
  | nil => rfl
  | cons b r ih =>
    have hb : b < 256 := h b (List.mem_cons_self b r)
    have hr : ∀ x ∈ r, x < 256 := fun x hx => h x (List.mem_cons_of_mem b hx)
    simp only [hexToArrayBuffer, arrayBufferToHex, hexCharsOf] at *
    rw [hexBytesOf_toHex2 b hb, ih hr]

theorem b32DrainAux_length (fuel : Nat) : ∀ bits bl : Nat, bl ≤ fuel →
    (b32DrainAux fuel bits bl).1.length = bl / 5 ∧ (b32DrainAux fuel bits bl).2 = bl % 5 := by
  induction fuel with
  | zero =>
    intro bits bl h
    obtain rfl : bl = 0 := by omega
    exact ⟨rfl, rfl⟩
  | succ fuel ih =>
    intro bits bl hle
    by_cases h : 5 ≤ bl
    · have := ih bits (bl - 5) (by omega)
      simp only [b32DrainAux, h, if_true, List.length_cons, this.1, this.2]
      omega
    · simp only [b32DrainAux, h, if_false, List.length_nil]
      omega

theorem b32Drain_length (bits : Nat) : ∀ bl : Nat,
    (b32Drain bits bl).1.length = bl / 5 ∧ (b32Drain bits bl).2 = bl % 5 :=
  fun bl => b32DrainAux_length bl bits bl (Nat.le_refl bl)

theorem b32Go_length (bs : List Nat) : ∀ bits bl : Nat, bl < 5 →
    (b32Go bs bits bl).length = (8 * bs.length + bl + 4) / 5 := by
  induction bs with
  | nil =>
    intro bits bl hbl
    by_cases h : 0 < bl
    · simp only [b32Go, h, if_true, List.length_cons, List.length_nil]
      omega
    · simp only [b32Go, h, if_false, List.length_nil]
      omega
  | cons b rest ih =>
    intro bits bl hbl
    have hdr := b32Drain_length (b32Push bits b) (bl + 8)
    simp only [b32Go, List.length_append, hdr.1, hdr.2,
      ih (b32Push bits b) ((bl + 8) % 5) (by omega), List.length_cons]
    omega

theorem encodeBase32_length (bs : List Nat) :
    (encodeBase32 bs).length = (8 * bs.length + 4) / 5 := by
  have := b32Go_length bs 0 0 (by omega)
  simpa [encodeBase32, String.length] using this

theorem b32char_mem (i : Nat) (h : i < 32) : b32char i ∈ BASE32_CHARS.data := by
  have hlen : BASE32_CHARS.data.length = 32 := rfl
  rw [b32char, List.getD_eq_getElem _ _ (by omega)]
  exact List.getElem_mem _

theorem b32DrainAux_chars_mem (fuel : Nat) : ∀ bits bl : Nat,
    ∀ c ∈ (b32DrainAux fuel bits bl).1, c ∈ BASE32_CHARS.data := by
  induction fuel with
  | zero =>
    intro bits bl c hc
    exact absurd hc (List.not_mem_nil c)
  | succ fuel ih =>
    intro bits bl c hc
    by_cases h : 5 ≤ bl
    · simp only [b32DrainAux, h, if_true, List.mem_cons] at hc
      rcases hc with rfl | hc
      · exact b32char_mem _ (by have := Nat.and_le_right (n := bits >>> (bl - 5)) (m := 31); omega)
      · exact ih bits (bl - 5) c hc
    · simp [b32DrainAux, h] at hc

theorem b32Drain_chars_mem (bits : Nat) : ∀ bl : Nat, ∀ c ∈ (b32Drain bits bl).1,
    c ∈ BASE32_CHARS.data :=
  fun bl => b32DrainAux_chars_mem bl bits bl

theorem b32Go_chars_mem (bs : List Nat) : ∀ bits bl : Nat, ∀ c ∈ b32Go bs bits bl,
    c ∈ BASE32_CHARS.data := by
  induction bs with
  | nil =>
    intro bits bl c hc
    by_cases h : 0 < bl
    · simp only [b32Go, h, if_true, List.mem_singleton] at hc
      subst hc
      exact b32char_mem _
        (by have := Nat.and_le_right (n := (bits <<< (5 - bl)) % 4294967296) (m := 31); omega)
    · simp [b32Go, h] at hc
  | cons b rest ih =>
    intro bits bl c hc
    simp only [b32Go, List.mem_append] at hc
    rcases hc with hc | hc
    · exact b32Drain_chars_mem _ _ c hc
    · exact ih _ _ c hc

end Crypto

theorem varintAux_isBytes (fuel : Nat) : ∀ n, IsBytes (varintAux fuel n) := by
  induction fuel with
  | zero =>
    intro n b hb
    simp only [varintAux, List.mem_singleton] at hb
    omega
  | succ fuel ih =>
    intro n b hb
    by_cases h : n < 128
    · simp only [varintAux, h, if_true, List.mem_singleton] at hb
      omega
    · simp only [varintAux, h, if_false, List.mem_cons] at hb
      rcases hb with rfl | hb
      · omega
      · exact ih (n / 128) b hb

theorem varint_isBytes (n : Nat) : IsBytes (varint n) := varintAux_isBytes n n

theorem isBytes_append {l1 l2 : List Nat} (h1 : IsBytes l1) (h2 : IsBytes l2) :
    IsBytes (l1 ++ l2) := by
  intro b hb
  rcases List.mem_append.mp hb with h | h
  · exact h1 b h
  · exact h2 b h

theorem encList_isBytes {bs : List Nat} (h : IsBytes bs) : IsBytes (encList bs) :=
  isBytes_append (varint_isBytes _) h

theorem char_toNat_lt (c : Char) : c.toNat < 1114112 := by
  have h : c.val.toNat < 55296 ∨ (57343 < c.val.toNat ∧ c.val.toNat < 1114112) := c.valid
  have he : c.toNat = c.val.toNat := rfl
  omega

theorem charBytes_isBytes (c : Char) : IsBytes (charBytes c) := by
  intro b hb
  have hc := char_toNat_lt c
  simp only [charBytes, List.mem_cons, List.mem_singleton] at hb
  rcases hb with rfl | rfl | rfl | hf
  · omega
  · omega
  · omega
  · exact absurd hf (List.not_mem_nil b)

theorem encodeChars_isBytes (cs : List Char) : IsBytes (encodeChars cs) := by
  induction cs with
  | nil => intro b hb; exact absurd hb (List.not_mem_nil b)
  | cons c r ih => exact isBytes_append (charBytes_isBytes c) ih

theorem strBytes_isBytes (s : String) : IsBytes (strBytes s) :=
  encodeChars_isBytes s.data

theorem serKey_isBytes {k : CryptoKey} (h : keyBytesValid k) : IsBytes (serKey k) := by
  cases k with
  | aes m =>
    intro b hb
    simp only [serKey, List.mem_cons] at hb
    rcases hb with rfl | hb
    · omega
    · exact encList_isBytes h b hb
  | derived cb s it hb =>
    intro b hmem
    obtain ⟨h1, h2, h3⟩ := h
    simp only [serKey, List.mem_cons, List.mem_append] at hmem
    rcases hmem with rfl | hm | hm | hm | hm
    · omega
    · exact encList_isBytes h1 b hm
    · exact encList_isBytes h2 b hm
    · exact varint_isBytes it b hm
    · exact encList_isBytes h3 b hm

theorem subtleEncrypt_isBytes {k : CryptoKey} {iv pt : List Nat}
    (hk : keyBytesValid k) (hiv : IsBytes iv) (hpt : IsBytes pt) :
    IsBytes (subtleEncrypt k iv pt) :=
  isBytes_append (serKey_isBytes hk) (isBytes_append (encList_isBytes hiv) hpt)

theorem takeBytes_isBytes (rng : Nat → Nat) (off n : Nat) :
    IsBytes (takeBytes rng off n) := takeBytes_lt rng off n

theorem deriveKek_valid (code : String) (salt : List Nat) (h : IsBytes salt) :
    keyBytesValid (Crypto.deriveKek code salt) :=
  ⟨strBytes_isBytes code, h, strBytes_isBytes Crypto.KDF_HASH⟩

theorem deriveKek_injective_code {code1 code2 : String} {salt : List Nat}
    (h : Crypto.deriveKek code1 salt = Crypto.deriveKek code2 salt) : code1 = code2 := by
  simp only [Crypto.deriveKek, CryptoKey.derived.injEq] at h
  exact strBytes_injective h.1

namespace Crypto

theorem encryptFile_ciphertext (rng : Nat → Nat) (file : FileData) (K : String)
    (instr : Option String) :
    (encryptFile rng file K instr).1 =
      subtleEncrypt (generateFileKey rng 0) (takeBytes rng 60 IV_BYTES) file.bytes := rfl

theorem encryptFile_salt (rng : Nat → Nat) (file : FileData) (K : String)
    (instr : Option String) :
    (encryptFile rng file K instr).2.salt =
      arrayBufferToHex (takeBytes rng 32 SALT_BYTES) := rfl

theorem encryptFile_iv (rng : Nat → Nat) (file : FileData) (K : String)
    (instr : Option String) :
    (encryptFile rng file K instr).2.iv =
      arrayBufferToHex (takeBytes rng 60 IV_BYTES) := rfl

theorem encryptFile_wrap_iv (rng : Nat → Nat) (file : FileData) (K : String)
    (instr : Option String) :
    (encryptFile rng file K instr).2.wrap_iv =
      arrayBufferToHex (takeBytes rng 48 WRAP_IV_BYTES) := rfl

theorem encryptFile_wrapped_key (rng : Nat → Nat) (file : FileData) (K : String)
    (instr : Option String) :
    (encryptFile rng file K instr).2.wrapped_file_key =
      arrayBufferToHex
        (subtleEncrypt (deriveKek K (takeBytes rng 32 SALT_BYTES))
          (takeBytes rng 48 WRAP_IV_BYTES) (takeBytes rng 0 (KEY_LEN / 8))) := rfl

theorem encryptFile_mime (rng : Nat → Nat) (file : FileData) (K : String)
    (instr : Option String) :
    (encryptFile rng file K instr).2.mime_type = file.mimeType := rfl

theorem encryptFile_salt_decoded (rng : Nat → Nat) (file : FileData) (K : String)
    (instr : Option String) :
    hexToArrayBuffer (encryptFile rng file K instr).2.salt =
      takeBytes rng 32 SALT_BYTES := by
  rw [encryptFile_salt]
  exact hexToArrayBuffer_arrayBufferToHex _ (takeBytes_lt rng 32 SALT_BYTES)

theorem encryptFile_iv_decoded (rng : Nat → Nat) (file : FileData) (K : String)
    (instr : Option String) :
    hexToArrayBuffer (encryptFile rng file K instr).2.iv =
      takeBytes rng 60 IV_BYTES := by
  rw [encryptFile_iv]
  exact hexToArrayBuffer_arrayBufferToHex _ (takeBytes_lt rng 60 IV_BYTES)

theorem encryptFile_wrap_iv_decoded (rng : Nat → Nat) (file : FileData) (K : String)
    (instr : Option String) :
    hexToArrayBuffer (encryptFile rng file K instr).2.wrap_iv =
      takeBytes rng 48 WRAP_IV_BYTES := by
  rw [encryptFile_wrap_iv]
  exact hexToArrayBuffer_arrayBufferToHex _ (takeBytes_lt rng 48 WRAP_IV_BYTES)

theorem encryptFile_wrapped_decoded (rng : Nat → Nat) (file : FileData) (K : String)
    (instr : Option String) :
    hexToArrayBuffer (encryptFile rng file K instr).2.wrapped_file_key =
      subtleEncrypt (deriveKek K (takeBytes rng 32 SALT_BYTES))
        (takeBytes rng 48 WRAP_IV_BYTES) (takeBytes rng 0 (KEY_LEN / 8)) := by
  rw [encryptFile_wrapped_key]
  refine hexToArrayBuffer_arrayBufferToHex _ ?_
  exact subtleEncrypt_isBytes
    (deriveKek_valid K _ (takeBytes_isBytes rng 32 SALT_BYTES))
    (takeBytes_isBytes rng 48 WRAP_IV_BYTES) (takeBytes_isBytes rng 0 (KEY_LEN / 8))

/-- Under the right download code, `getFileKey` recovers exactly the file
key generated by the sender. -/
theorem getFileKey_of_encryptFile (rng : Nat → Nat) (file : FileData) (K : String)
    (instr : Option String) :
    (getFileKey (encryptFile rng file K instr).2 K).2 =
      Except.ok (generateFileKey rng 0) := by
  simp only [getFileKey, encryptFile_salt_decoded, encryptFile_wrap_iv_decoded,
    encryptFile_wrapped_decoded, unwrapFileKey, subtleDecrypt_subtleEncrypt,
    takeBytes_length, generateFileKey, if_true]

end Crypto

/-- Claim C1: Round trip of the envelope protocol — for every byte content `C` and
every download code `K` of 6–32 symbols, running the sender flow
`encryptFile` on `C` with code `K` and then the receiver flow
`decryptFile(ciphertext, envelope, getFileKey(envelope, K))` with the same
code returns exactly the bytes `C`. -/
theorem c1_round_trip (C : List Nat) (K : String) (instr : Option String)
    (rng : Nat → Nat) (name mime : String)
    (hC : ∀ b ∈ C, b < 256) (hK : 6 ≤ K.length ∧ K.length ≤ 32) :
    ∃ fileKey,
      (Crypto.getFileKey (Crypto.encryptFile rng ⟨name, mime, C⟩ K instr).2 K).2 =
        Except.ok fileKey ∧
      Crypto.decryptFile (Crypto.encryptFile rng ⟨name, mime, C⟩ K instr).1
        (Crypto.encryptFile rng ⟨name, mime, C⟩ K instr).2 fileKey =
        Except.ok ⟨C, mime⟩ := by
  refine ⟨Crypto.generateFileKey rng 0, Crypto.getFileKey_of_encryptFile rng _ K instr, ?_⟩
  simp only [Crypto.decryptFile, Crypto.encryptFile_iv_decoded,
    Crypto.encryptFile_ciphertext, subtleDecrypt_subtleEncrypt, Crypto.encryptFile_mime]

/-- Witness for C1 at the spec's concrete scenario: content "hello", code
`"7F3KQPLNH2"`. -/
theorem c1_round_trip_witness :
    (∀ b ∈ [104, 101, 108, 108, 111], b < 256) ∧
    (6 ≤ ("7F3KQPLNH2" : String).length ∧ ("7F3KQPLNH2" : String).length ≤ 32) ∧
    (∃ fileKey,
      (Crypto.getFileKey
        (Crypto.encryptFile (fun i => i) ⟨"f", "text/plain", [104, 101, 108, 108, 111]⟩
          "7F3KQPLNH2" none).2 "7F3KQPLNH2").2 = Except.ok fileKey ∧
      Crypto.decryptFile
        (Crypto.encryptFile (fun i => i) ⟨"f", "text/plain", [104, 101, 108, 108, 111]⟩
          "7F3KQPLNH2" none).1
        (Crypto.encryptFile (fun i => i) ⟨"f", "text/plain", [104, 101, 108, 108, 111]⟩
          "7F3KQPLNH2" none).2 fileKey =
        Except.ok ⟨[104, 101, 108, 108, 111], "text/plain"⟩) :=
  ⟨by decide, ⟨by decide, by decide⟩,
    c1_round_trip _ _ _ _ _ _ (by decide) ⟨by decide, by decide⟩⟩

/-- Claim C3: Wrong-code rejection — for every envelope created with download code
`K` and every code `K2 ≠ K`, `getFileKey` (via `unwrapFileKey`) with `K2`
always fails with the authentication-failure error; it never succeeds and
never returns a corrupted key. -/
theorem c3_wrong_code_rejection (C : List Nat) (K K2 : String) (instr : Option String)
    (rng : Nat → Nat) (name mime : String) (hne : K2 ≠ K) :
    (Crypto.getFileKey (Crypto.encryptFile rng ⟨name, mime, C⟩ K instr).2 K2).2 =
      Except.error "Decryption failed. The download code may be incorrect." := by
  have hkey : Crypto.deriveKek K2 (takeBytes rng 32 Crypto.SALT_BYTES) ≠
      Crypto.deriveKek K (takeBytes rng 32 Crypto.SALT_BYTES) := by
    intro heq
    exact hne (deriveKek_injective_code heq)
  simp only [Crypto.getFileKey, Crypto.encryptFile_salt_decoded,
    Crypto.encryptFile_wrap_iv_decoded, Crypto.encryptFile_wrapped_decoded,
    Crypto.unwrapFileKey, subtleDecrypt_wrong_key _ _ _ _ _ (Or.inl hkey)]

/-- Witness for C3 at the spec's concrete scenario: code `"7F3KQPLNH2"`,
wrong code `"0000000000"`. -/
theorem c3_wrong_code_rejection_witness :
    ("0000000000" : String) ≠ "7F3KQPLNH2" ∧
    (Crypto.getFileKey
      (Crypto.encryptFile (fun i => i) ⟨"f", "text/plain", [104, 101, 108, 108, 111]⟩
        "7F3KQPLNH2" none).2 "0000000000").2 =
      Except.error "Decryption failed. The download code may be incorrect." :=
  ⟨by decide, c3_wrong_code_rejection _ _ _ _ _ _ _ (by decide)⟩

/-- Claim C2 (failing evaluation): the sender flow draws the wrap IV and the
content IV as distinct independent segments of the random stream, but the
older receiver flow in `encryption.ts` (`decryptFile`, line 355) unwraps the
file key with the *content* IV (`envelope.iv`) instead of the envelope's
independently generated wrap IV — which that flow never even stores.  As a
result the round trip fails with the correct download code: the unwrap is
attempted under the wrong IV and authentication fails. -/
theorem c2_wrap_iv_reuse_failure :
    takeBytes (fun i => i) 48 12 ≠ takeBytes (fun i => i) 60 12 ∧
    EncryptionV1.decryptFile
      (EncryptionV1.encryptFile (fun i => i) ⟨"f", "text/plain", [1, 2, 3]⟩ "ABC123").1
      (EncryptionV1.encryptFile (fun i => i) ⟨"f", "text/plain", [1, 2, 3]⟩ "ABC123").2
      "ABC123" =
      Except.error "Decryption failed. The download code may be incorrect or the data corrupted." := by
  constructor
  · decide
  · decide

/-- Auxiliary: once `download_count` has reached `max_downloads`, every
further call is Denied and the entry is unchanged. -/
theorem runCalls_exhausted (now : Nat) (e : Ledger.LedgerEntry) (n : Nat)
    (h : e.max_downloads ≤ e.download_count) :
    (Ledger.runCalls now e n).2 = List.replicate n false := by
  induction n generalizing e with
  | zero => rfl
  | succ n ih =>
    have hc : ¬ (now < e.expires_at ∧ e.download_count < e.max_downloads) := by omega
    simp only [Ledger.runCalls, Ledger.increment_download_count, hc, if_false,
      List.replicate]
    exact congrArg (List.cons false) (ih e h)

/-- Claim C4: Concurrent download-limit enforcement — with `max_downloads = 1` and
a fresh, unexpired entry, any execution of `N ≥ 2` concurrent
`increment_download_count` calls (each one atomic conditional update, hence
any interleaving linearizes to this sequence) yields exactly one Allowed and
`N − 1` Denied; mapped through the edge function this is exactly one
HTTP 200 and `N − 1` HTTP 403. -/
theorem c4_concurrent_limit (now exp N : Nat) (hexp : now < exp) (hN : 2 ≤ N) :
    (Ledger.runCalls now ⟨0, 1, exp⟩ N).2.count true = 1 ∧
    (Ledger.runCalls now ⟨0, 1, exp⟩ N).2.count false = N - 1 ∧
    ((Ledger.runCalls now ⟨0, 1, exp⟩ N).2.map
        (fun b => Ledger.serve (Except.ok b))).count 200 = 1 ∧
    ((Ledger.runCalls now ⟨0, 1, exp⟩ N).2.map
        (fun b => Ledger.serve (Except.ok b))).count 403 = N - 1 := by
  obtain ⟨n, rfl⟩ : ∃ n, N = n + 1 := ⟨N - 1, by omega⟩
  have hc : now < exp ∧ (0 : Nat) < 1 := ⟨hexp, by omega⟩
  have hrest := runCalls_exhausted now ⟨1, 1, exp⟩ n (Nat.le_refl 1)
  simp only [Ledger.runCalls, Ledger.increment_download_count, if_pos hc, hrest,
    List.map_cons, List.map_replicate, Ledger.serve]
  refine ⟨?_, ?_, ?_, ?_⟩ <;>
    simp [List.count_cons, List.count_replicate] <;> omega

/-- Witness for C4 at `N = 5`. -/
theorem c4_concurrent_limit_witness :
    (0 : Nat) < 10 ∧ (2 : Nat) ≤ 5 ∧
    ((Ledger.runCalls 0 ⟨0, 1, 10⟩ 5).2.count true = 1 ∧
     (Ledger.runCalls 0 ⟨0, 1, 10⟩ 5).2.count false = 4 ∧
     ((Ledger.runCalls 0 ⟨0, 1, 10⟩ 5).2.map
         (fun b => Ledger.serve (Except.ok b))).count 200 = 1 ∧
     ((Ledger.runCalls 0 ⟨0, 1, 10⟩ 5).2.map
         (fun b => Ledger.serve (Except.ok b))).count 403 = 4) :=
  ⟨by decide, by decide, c4_concurrent_limit 0 10 5 (by decide) (by decide)⟩

/-- Claim C5: Ledger ordering — in `handleDownload` the increment call is always
the first external action; the storage download happens only in runs where
the increment returned success; and when the ledger denies, the storage
download never happens and no ciphertext or plaintext is ever handed back. -/
theorem c5_ledger_ordering (incrementResult : Except String Unit)
    (storageResult : Except String (List Nat)) (metadata : Crypto.Envelope)
    (fileKey : CryptoKey) :
    ((DownloadPage.handleDownload incrementResult storageResult metadata fileKey).1.head? =
      some DownloadPage.DlEv.invokeIncrement) ∧
    (DownloadPage.DlEv.storageDownload ∈
        (DownloadPage.handleDownload incrementResult storageResult metadata fileKey).1 →
      incrementResult = Except.ok ()) ∧
    (∀ e, incrementResult = Except.error e →
      DownloadPage.DlEv.storageDownload ∉
        (DownloadPage.handleDownload incrementResult storageResult metadata fileKey).1 ∧
      ∀ b, (DownloadPage.handleDownload incrementResult storageResult metadata fileKey).2 ≠
        Except.ok b) := by
  cases incrementResult with
  | error e =>
    refine ⟨rfl, ?_, ?_⟩ <;> simp [DownloadPage.handleDownload]
  | ok u =>
    cases u
    cases storageResult with
    | error m =>
      refine ⟨rfl, fun _ => rfl, ?_⟩
      intro e he
      exact absurd he (by simp)
    | ok ct =>
      cases hd : Crypto.decryptFile ct metadata fileKey with
      | error m =>
        refine ⟨?_, fun _ => rfl, ?_⟩
        · simp [DownloadPage.handleDownload, hd]
        · intro e he
          exact absurd he (by simp)
      | ok blob =>
        refine ⟨?_, fun _ => rfl, ?_⟩
        · simp [DownloadPage.handleDownload, hd]
        · intro e he
          exact absurd he (by simp)

/-- Witness for C5: with the ledger answering Denied, the storage download
is never attempted and no bytes are returned. -/
theorem c5_ledger_ordering_witness :
    DownloadPage.DlEv.storageDownload ∉
      (DownloadPage.handleDownload (Except.error "limit reached") (Except.ok [])
        ⟨"f", "t", 0, "AES-GCM", "", "", 250000, "SHA-256", "", "", none, none⟩
        (CryptoKey.aes [])).1 ∧
    ∀ b, (DownloadPage.handleDownload (Except.error "limit reached") (Except.ok [])
        ⟨"f", "t", 0, "AES-GCM", "", "", 250000, "SHA-256", "", "", none, none⟩
        (CryptoKey.aes [])).2 ≠ Except.ok b :=
  (c5_ledger_ordering _ _ _ _).2.2 "limit reached" rfl

/-- Claim C6 counterexample: at a concrete envelope, the receiver flow's
wrong-code failure and corrupted-data failure carry *different* user-facing
messages (`DownloadPage` surfaces `err.message` directly), so the two
authentication failures are not surfaced as one single generic message. -/
theorem c6_oracle_counterexample :
    (Crypto.getFileKey
      (Crypto.encryptFile (fun i => i) ⟨"f", "t", [1, 2, 3]⟩ "ABC123" none).2 "XYZ789").2 =
      Except.error "Decryption failed. The download code may be incorrect." ∧
    Crypto.decryptFile []
      (Crypto.encryptFile (fun i => i) ⟨"f", "t", [1, 2, 3]⟩ "ABC123" none).2
      (Crypto.generateFileKey (fun i => i) 0) =
      Except.error "File decryption failed. The data may be corrupted." ∧
    ("Decryption failed. The download code may be incorrect." : String) ≠
      "File decryption failed. The data may be corrupted." :=
  ⟨by decide, by decide, by decide⟩

/-- Claim C6 amended: each cryptographic authentication failure in the receiver
flow is surfaced with a fixed generic message for its class, but the two
classes carry *different* messages — a failed key unwrap names the download
code, a failed content tag check names corrupted data — so the user-facing
error does distinguish a wrong download code from corrupted data. -/
theorem c6_amended_distinct_messages :
    (∀ (envelope : Crypto.Envelope) (code : String),
      Crypto.unwrapFileKey (Crypto.hexToArrayBuffer envelope.wrapped_file_key)
          (Crypto.hexToArrayBuffer envelope.wrap_iv)
          (Crypto.deriveKek code (Crypto.hexToArrayBuffer envelope.salt)) = none →
      (Crypto.getFileKey envelope code).2 =
        Except.error "Decryption failed. The download code may be incorrect.") ∧
    (∀ (ct : List Nat) (envelope : Crypto.Envelope) (fk : CryptoKey),
      subtleDecrypt fk (Crypto.hexToArrayBuffer envelope.iv) ct = none →
      Crypto.decryptFile ct envelope fk =
        Except.error "File decryption failed. The data may be corrupted.") ∧
    ("Decryption failed. The download code may be incorrect." : String) ≠
      "File decryption failed. The data may be corrupted." := by
  refine ⟨?_, ?_, by decide⟩
  · intro envelope code h
    simp [Crypto.getFileKey, h]
  · intro ct envelope fk h
    simp [Crypto.decryptFile, h]

/-- Witness for C6's amended statement at concrete inputs. -/
theorem c6_amended_distinct_messages_witness :
    (Crypto.getFileKey
      (Crypto.encryptFile (fun i => i) ⟨"f", "t", [1, 2, 3]⟩ "ABC123" none).2 "WRONGCODE").2 =
      Except.error "Decryption failed. The download code may be incorrect." ∧
    Crypto.decryptFile [0]
      (Crypto.encryptFile (fun i => i) ⟨"f", "t", [1, 2, 3]⟩ "ABC123" none).2
      (Crypto.generateFileKey (fun i => i) 0) =
      Except.error "File decryption failed. The data may be corrupted." :=
  ⟨c6_amended_distinct_messages.1 _ "WRONGCODE" (by decide),
   c6_amended_distinct_messages.2.1 [0] _ _ (by decide)⟩

/-- Claim C7 counterexample: with a valid file key and a note whose tag check
fails (the stored note ciphertext is corrupted), `decryptInstructions` does
not raise — it returns the placeholder text as an ordinary string value. -/
theorem c7_note_failure_counterexample :
    Crypto.decryptInstructions
      { (Crypto.encryptFile (fun i => i) ⟨"f", "t", [1]⟩ "ABC123" none).2 with
          encrypted_instructions := some "00", instructions_iv := some "01" }
      (Crypto.generateFileKey (fun i => i) 0) =
      Except.ok (some "Could not decrypt instructions.") := by
  decide

/-- Claim C7 amended: a content tag-check failure in `decryptFile` raises the
generic decryption-failed error, but `decryptInstructions` catches its
tag-check failure and returns the fixed string
"Could not decrypt instructions." as an ordinary value instead of raising. -/
theorem c7_amended_note_returns_string :
    (∀ (ct : List Nat) (envelope : Crypto.Envelope) (fk : CryptoKey),
      subtleDecrypt fk (Crypto.hexToArrayBuffer envelope.iv) ct = none →
      Crypto.decryptFile ct envelope fk =
        Except.error "File decryption failed. The data may be corrupted.") ∧
    (∀ (envelope : Crypto.Envelope) (fk : CryptoKey) (ei ii : String),
      envelope.encrypted_instructions = some ei →
      envelope.instructions_iv = some ii →
      subtleDecrypt fk (Crypto.hexToArrayBuffer ii) (Crypto.hexToArrayBuffer ei) = none →
      Crypto.decryptInstructions envelope fk =
        Except.ok (some "Could not decrypt instructions.")) := by
  constructor
  · intro ct envelope fk h
    simp [Crypto.decryptFile, h]
  · intro envelope fk ei ii h1 h2 h3
    simp [Crypto.decryptInstructions, h1, h2, h3]

/-- Witness for C7's amended statement at concrete inputs. -/
theorem c7_amended_note_returns_string_witness :
    Crypto.decryptFile []
      (Crypto.encryptFile (fun i => i) ⟨"f", "t", [1]⟩ "ABC123" none).2
      (Crypto.generateFileKey (fun i => i) 0) =
      Except.error "File decryption failed. The data may be corrupted." ∧
    Crypto.decryptInstructions
      { (Crypto.encryptFile (fun i => i) ⟨"f", "t", [1]⟩ "ABC123" none).2 with
          encrypted_instructions := some "01", instructions_iv := some "02" }
      (Crypto.generateFileKey (fun i => i) 0) =
      Except.ok (some "Could not decrypt instructions.") :=
  ⟨c7_amended_note_returns_string.1 [] _ _ (by decide),
   c7_amended_note_returns_string.2 _ _ "01" "02" rfl rfl (by decide)⟩

/-- Claim C8 counterexample: an envelope whose `salt` is not hex ("ZZ") is not
rejected — `hexToArrayBuffer` silently decodes it to `[0]` (`parseInt`
yields `NaN`, stored as 0) and the flow goes on to perform the key
derivation (the `kdf` event occurs), contradicting "rejected with a
FormatError before any cryptographic call". -/
theorem c8_no_format_error_counterexample :
    Crypto.hexToArrayBuffer "ZZ" = [0] ∧
    Crypto.RecvEv.kdf ∈
      (Crypto.getFileKey
        ⟨"f", "t", 0, "AES-GCM", "zz", "ZZ", 250000, "SHA-256", "GG", "-1", none, none⟩
        "ABC123").1 :=
  ⟨by decide, by decide⟩

/-- Claim C8 amended: the receiver flow performs no format validation at all —
for *every* envelope, malformed or not, `getFileKey` totally decodes the
binary fields (non-hex byte pairs become 0, a trailing odd character is
dropped) and always proceeds through the key derivation and the unwrap; no
FormatError rejection path exists, so malformed fields surface only later
as a generic authentication failure. -/
theorem c8_amended_no_validation (envelope : Crypto.Envelope) (code : String) :
    (Crypto.getFileKey envelope code).1 =
      [Crypto.RecvEv.hexDecode "salt", Crypto.RecvEv.kdf,
       Crypto.RecvEv.hexDecode "wrapped_file_key", Crypto.RecvEv.hexDecode "wrap_iv",
       Crypto.RecvEv.unwrap] := rfl

/-- Claim C9: `generateDownloadCode(length)` draws at least
`ceil(length * 5 / 8)` bytes from the secure random source (it draws exactly
that many), returns a string of exactly `length` symbols, and every symbol
comes from the restricted 32-symbol alphabet that excludes 0, O, 1 and I. -/
theorem c9_generate_download_code (L : Nat) (rng : Nat → Nat) :
    5 * L ≤ 8 * Crypto.downloadCodeEntropyBytes L ∧
    (Crypto.generateDownloadCode rng L).length = L ∧
    (Crypto.generateDownloadCode rng L).data.all
      (fun c => Crypto.BASE32_CHARS.data.contains c) = true := by
  have hlen := Crypto.encodeBase32_length (takeBytes rng 0 (Crypto.downloadCodeEntropyBytes L))
  rw [takeBytes_length] at hlen
  refine ⟨?_, ?_, ?_⟩
  · simp only [Crypto.downloadCodeEntropyBytes]
    omega
  · simp only [Crypto.generateDownloadCode, String.take_eq, String.length, List.length_take]
    simp only [String.length] at hlen
    rw [hlen]
    simp only [Crypto.downloadCodeEntropyBytes] at *
    omega
  · rw [List.all_eq_true]
    intro c hc
    simp only [Crypto.generateDownloadCode, String.take_eq] at hc
    have hmem : c ∈ (Crypto.encodeBase32
        (takeBytes rng 0 (Crypto.downloadCodeEntropyBytes L))).data :=
      List.mem_of_mem_take hc
    have hmem2 : c ∈ Crypto.BASE32_CHARS.data :=
      Crypto.b32Go_chars_mem _ _ _ c hmem
    exact List.elem_eq_true_of_mem hmem2

theorem lowBits_length (n bl : Nat) : (lowBits n bl).length = bl := by
  simp [lowBits]

theorem lowBits_succ (n bl : Nat) :
    lowBits n (bl + 1) = n.testBit bl :: lowBits n bl := by
  apply List.ext_getElem
  · simp [lowBits]
  · intro i h1 h2
    cases i with
    | zero =>
      simp only [lowBits, List.getElem_map, List.getElem_range, List.getElem_cons_zero]
      congr 1
    | succ j =>
      have hj : j < bl := by
        simp only [List.length_cons, lowBits_length] at h2
        omega
      simp only [lowBits, List.getElem_map, List.getElem_range, List.getElem_cons_succ]
      congr 1
      omega

theorem bitsVal_go (l : List Bool) : ∀ a : Nat,
    l.foldl (fun a b => 2 * a + (if b then 1 else 0)) a =
      a * 2 ^ l.length + bitsVal l := by
  induction l with
  | nil => intro a; simp [bitsVal]
  | cons b t ih =>
    intro a
    simp only [bitsVal, List.foldl_cons, List.length_cons]
    rw [ih (2 * a + (if b then 1 else 0)), ih (2 * 0 + (if b then 1 else 0)),
      Nat.pow_succ]
    ring

theorem bitsVal_cons (b : Bool) (t : List Bool) :
    bitsVal (b :: t) = (if b then 1 else 0) * 2 ^ t.length + bitsVal t := by
  simp only [bitsVal, List.foldl_cons]
  rw [bitsVal_go]
  simp only [bitsVal]
  ring

theorem bitsVal_lowBits (n : Nat) : ∀ bl : Nat, bitsVal (lowBits n bl) = n % 2 ^ bl := by
  intro bl
  induction bl with
  | zero => simp [lowBits, bitsVal, Nat.mod_one]
  | succ bl ih =>
    rw [lowBits_succ, bitsVal_cons, lowBits_length, ih]
    have hsplit : n % (2 ^ bl * 2) = n % 2 ^ bl + 2 ^ bl * (n / 2 ^ bl % 2) := Nat.mod_mul
    have htb : n.testBit bl = decide (n / 2 ^ bl % 2 = 1) := Nat.testBit_to_div_mod
    rw [Nat.pow_succ, hsplit, htb]
    rcases Nat.mod_two_eq_zero_or_one (n / 2 ^ bl) with h | h <;> simp [h] <;> omega

theorem bitsVal_append_single_false (l : List Bool) :
    bitsVal (l ++ [false]) = 2 * bitsVal l := by
  simp only [bitsVal, List.foldl_append, List.foldl_cons, List.foldl_nil]
  simp

theorem bitsVal_append_false (l : List Bool) : ∀ m : Nat,
    bitsVal (l ++ List.replicate m false) = bitsVal l * 2 ^ m := by
  intro m
  induction m with
  | zero => simp
  | succ m ih =>
    have hsplit : l ++ List.replicate (m + 1) false =
        (l ++ List.replicate m false) ++ [false] := by
      rw [List.append_assoc]
      congr 1
      rw [List.replicate_succ' m false]
    rw [hsplit, bitsVal_append_single_false, ih, Nat.pow_succ]
    ring

theorem lowBits_five (n : Nat) :
    lowBits n 5 = [n.testBit 4, n.testBit 3, n.testBit 2, n.testBit 1, n.testBit 0] := rfl

theorem lowBits_split (bits bl : Nat) (h : 5 ≤ bl) :
    lowBits bits bl = lowBits (bits >>> (bl - 5)) 5 ++ lowBits bits (bl - 5) := by
  apply List.ext_getElem
  · simp only [lowBits_length, List.length_append]
    omega
  · intro i h1 h2
    rw [lowBits_length] at h1
    by_cases hi : i < 5
    · rw [List.getElem_append_left (by rw [lowBits_length]; exact hi)]
      simp only [lowBits, List.getElem_map, List.getElem_range, Nat.testBit_shiftRight]
      congr 1
      omega
    · rw [List.getElem_append_right (by rw [lowBits_length]; omega)]
      simp only [lowBits, List.getElem_map, List.getElem_range, List.length_map,
        List.length_range]
      congr 1
      omega

theorem chunk5_cons5 (a b c d e : Bool) (rest : List Bool) :
    chunk5 (a :: b :: c :: d :: e :: rest) = [a, b, c, d, e] :: chunk5 rest := rfl

theorem chunk5_eq_single (l : List Bool) (h0 : l ≠ []) (h5 : l.length < 5) :
    chunk5 l = [l] := by
  rcases l with _ | ⟨a, _ | ⟨b, _ | ⟨c, _ | ⟨d, _ | ⟨e, t⟩⟩⟩⟩⟩
  · exact absurd rfl h0
  · rfl
  · rfl
  · rfl
  · rfl
  · simp only [List.length_cons] at h5
    omega

theorem and_31_eq (x : Nat) : x &&& 31 = x % 32 := by
  have h31 : (31 : Nat) = 2 ^ 5 - 1 := rfl
  have h32 : (32 : Nat) = 2 ^ 5 := rfl
  rw [h31, h32, Nat.and_pow_two_sub_one_eq_mod]

/-- The drain loop, viewed on the spec side: it peels complete 5-bit groups
off the top of the pending window. -/
theorem b32DrainAux_chunk (fuel : Nat) : ∀ bits bl R, bl ≤ fuel →
    chunkMapR (lowBits bits bl ++ R) =
      (Crypto.b32DrainAux fuel bits bl).1 ++
        chunkMapR (lowBits bits (Crypto.b32DrainAux fuel bits bl).2 ++ R) := by
  induction fuel with
  | zero =>
    intro bits bl R h
    obtain rfl : bl = 0 := by omega
    rfl
  | succ fuel ih =>
    intro bits bl R h
    by_cases h5 : 5 ≤ bl
    · rw [lowBits_split bits bl h5, List.append_assoc, lowBits_five]
      simp only [List.cons_append, List.nil_append, chunkMapR, chunk5_cons5, List.map_cons]
      have hhead : bitsVal ([( bits >>> (bl - 5)).testBit 4, (bits >>> (bl - 5)).testBit 3,
          (bits >>> (bl - 5)).testBit 2, (bits >>> (bl - 5)).testBit 1,
          (bits >>> (bl - 5)).testBit 0] ++
            List.replicate (5 - ([(bits >>> (bl - 5)).testBit 4, (bits >>> (bl - 5)).testBit 3,
              (bits >>> (bl - 5)).testBit 2, (bits >>> (bl - 5)).testBit 1,
              (bits >>> (bl - 5)).testBit 0] : List Bool).length) false) =
          (bits >>> (bl - 5)) &&& 31 := by
        rw [← lowBits_five]
        simp only [lowBits_length, Nat.sub_self, List.replicate, List.append_nil]
        rw [bitsVal_lowBits, and_31_eq]
        rfl
      simp only [List.cons_append, List.nil_append] at hhead
      rw [hhead]
      simp only [Crypto.b32DrainAux, h5, if_true, List.cons_append]
      have := ih bits (bl - 5) R (by omega)
      simp only [chunkMapR] at this
      rw [this]
    · simp only [Crypto.b32DrainAux, h5, if_false, List.nil_append]

/-- Pushing one byte appends its 8 bits (MSB first) to the pending window. -/
theorem lowBits_push (bits b bl : Nat) (hbl : bl < 5) (hb : b < 256) :
    lowBits (Crypto.b32Push bits b) (bl + 8) = lowBits bits bl ++ byteBits b := by
  have h256 : (256 : Nat) = 2 ^ 8 := rfl
  apply List.ext_getElem
  · simp only [lowBits_length, List.length_append, byteBits, List.length_map,
      List.length_range]
  · intro i h1 h2
    rw [lowBits_length] at h1
    have h2pow : (4294967296 : Nat) = 2 ^ 32 := rfl
    by_cases hi : i < bl
    · rw [List.getElem_append_left (by rw [lowBits_length]; exact hi)]
      simp only [lowBits, List.getElem_map, List.getElem_range, Crypto.b32Push]
      rw [h2pow, Nat.testBit_or, Nat.testBit_mod_two_pow, Nat.testBit_shiftLeft]
      have hp32 : decide (bl + 8 - 1 - i < 32) = true := decide_eq_true (by omega)
      have hp8 : decide (8 ≤ bl + 8 - 1 - i) = true := decide_eq_true (by omega)
      have hbf : b.testBit (bl + 8 - 1 - i) = false :=
        Nat.testBit_eq_false_of_lt
          (Nat.lt_of_lt_of_le (h256 ▸ hb) (Nat.pow_le_pow_right (by omega) (by omega)))
      simp only [hp32, hp8, Bool.true_and, hbf, Bool.or_false]
      congr 1
      omega
    · rw [List.getElem_append_right (by rw [lowBits_length]; omega)]
      simp only [lowBits, byteBits, List.getElem_map, List.getElem_range,
        List.length_map, List.length_range, Crypto.b32Push]
      rw [h2pow, Nat.testBit_or, Nat.testBit_mod_two_pow, Nat.testBit_shiftLeft]
      have hp8 : decide (8 ≤ bl + 8 - 1 - i) = false := decide_eq_false (by omega)
      simp only [hp8, Bool.false_and, Bool.and_false, Bool.false_or]
      congr 1
      omega

/-- The encoder body agrees with the spec-level chunked description with
*right*-padding of the final partial group, for any pending window below 5
bits. -/
theorem b32Go_spec (bs : List Nat) : ∀ bits bl, (∀ x ∈ bs, x < 256) → bl < 5 →
    Crypto.b32Go bs bits bl = chunkMapR (lowBits bits bl ++ bytesBits bs) := by
  induction bs with
  | nil =>
    intro bits bl _ hbl
    simp only [bytesBits, List.append_nil]
    by_cases h0 : 0 < bl
    · simp only [Crypto.b32Go, h0, if_true]
      have hne : lowBits bits bl ≠ [] := by
        intro hcon
        have := lowBits_length bits bl
        rw [hcon] at this
        simp at this
        omega
      rw [chunkMapR, chunk5_eq_single _ hne (by rw [lowBits_length]; omega)]
      simp only [List.map_cons, List.map_nil, lowBits_length]
      have hval : bitsVal (lowBits bits bl ++ List.replicate (5 - bl) false) =
          bits % 2 ^ bl * 2 ^ (5 - bl) := by
        rw [bitsVal_append_false, bitsVal_lowBits]
      rw [hval]
      have h2pow : (4294967296 : Nat) = 2 ^ 32 := rfl
      have hdvd : (32 : Nat) ∣ 4294967296 := ⟨134217728, rfl⟩
      rw [and_31_eq, Nat.mod_mod_of_dvd _ hdvd, Nat.shiftLeft_eq]
      have h32 : (32 : Nat) = 2 ^ bl * 2 ^ (5 - bl) := by
        rw [← pow_add]
        have hsum : bl + (5 - bl) = 5 := by omega
        rw [hsum]
        rfl
      rw [h32, Nat.mul_mod_mul_right]
    · obtain rfl : bl = 0 := by omega
      rfl
  | cons x rest ih =>
    intro bits bl hx hbl
    have hx256 : x < 256 := hx x (List.mem_cons_self x rest)
    have hrest : ∀ y ∈ rest, y < 256 := fun y hy => hx y (List.mem_cons_of_mem x hy)
    simp only [Crypto.b32Go]
    have hpush : lowBits bits bl ++ bytesBits (x :: rest) =
        lowBits (Crypto.b32Push bits x) (bl + 8) ++ bytesBits rest := by
      show lowBits bits bl ++ (byteBits x ++ bytesBits rest) = _
      rw [← List.append_assoc, ← lowBits_push bits x bl hbl hx256]
    rw [hpush]
    have hdrain := b32DrainAux_chunk (bl + 8) (Crypto.b32Push bits x) (bl + 8)
      (bytesBits rest) (Nat.le_refl _)
    rw [Crypto.b32Drain] at *
    rw [hdrain]
    congr 1
    have hbl2 := Crypto.b32DrainAux_length (bl + 8) (Crypto.b32Push bits x) (bl + 8) (Nat.le_refl _)
    rw [ih (Crypto.b32Push bits x) _ hrest (by rw [hbl2.2]; omega)]

/-- Claim C10 counterexample: on the single byte 0xFF the implementation emits
"96" — the trailing 3 bits (value 7) are shifted to the *top* of the final
group (7 · 4 = 28, symbol '6') — whereas the claim's left-padding (zeros in
the high-order positions, value 7, symbol 'H') would give "9H". -/
theorem c10_left_padding_counterexample :
    Crypto.encodeBase32 [255] = "96" ∧ encodeBase32SpecLeftPad [255] = "9H" ∧
    Crypto.encodeBase32 [255] ≠ encodeBase32SpecLeftPad [255] :=
  ⟨by decide, by decide, by decide⟩

/-- Claim C10 amended: `encodeBase32` treats the bytes as one contiguous bit
buffer and emits 5-bit groups most-significant-bits-first, and a trailing
partial group of fewer than 5 bits is *right*-padded with zero bits (zeros
in the low-order positions of the final group — the remaining bits are
shifted to its top) before being encoded. -/
theorem c10_amended_right_padding (bs : List Nat) (h : ∀ b ∈ bs, b < 256) :
    Crypto.encodeBase32 bs = encodeBase32SpecRightPad bs := by
  have hgo := b32Go_spec bs 0 0 h (by omega)
  simp only [Crypto.encodeBase32, encodeBase32SpecRightPad]
  rw [hgo]
  rfl

/-- Witness for C10's amended statement at the byte 0xFF. -/
theorem c10_amended_right_padding_witness :
    (∀ b ∈ [255], b < 256) ∧
    Crypto.encodeBase32 [255] = encodeBase32SpecRightPad [255] :=
  ⟨by decide, c10_amended_right_padding [255] (by decide)⟩

end SecureShare

